import Mathlib

/-!
A shallow embedding of the org-mode document core of `RWejlgaard/org`
(`org.go`, with the tree-mutation helpers of `ui.go`).

Conventions used throughout:

* A Go `*Item` is modelled as the inductive `Org.Item`; Go pointer equality
  (used by `deleteItem` and `swapItems`) is modelled by structural equality
  `Org.ibeq`.  On the ownership-tree shapes the program builds, a pointer
  occurs at most once, so structural absence coincides with pointer absence.
* `time.Time` is modelled as `Org.OrgTime` (calendar fields only); the
  process clock `time.Now()` becomes an explicit `now` argument.
* The regular expressions of `org.go` are modelled as explicit scanning
  functions over `List Char`, following Go's leftmost-first (Perl-style)
  submatch semantics for these particular patterns.
* File I/O is out of scope: `ParseOrgFile`'s scan loop over lines becomes
  `Org.parseOrgLines`, `bufio.ScanLines` becomes `Org.splitLinesStr`, and
  `OrgFile.Save`/`writeItem` become `Org.writeItems`/`Org.writeItem`
  producing the list of output lines.
-/

namespace Org

/-! ## Character classes and low-level string scanning -/

/-- The character class `\s` of Go's `regexp` package: `[\t\n\f\r ]`. -/
def isRegexSpace (c : Char) : Bool :=
  c == ' ' || c == '\t' || c == '\n' || c == '\x0C' || c == '\r'

/-- Whitespace as recognized by Go's `unicode.IsSpace` (used by
`strings.TrimSpace`): the Unicode `White_Space` code points — the six
Latin-1 controls and space, `U+0085`, `U+00A0`, `U+1680`,
`U+2000`-`U+200A`, `U+2028`, `U+2029`, `U+202F`, `U+205F`, `U+3000`. -/
def isGoSpace (c : Char) : Bool :=
  c == ' ' || c == '\t' || c == '\n' || c == '\x0B' || c == '\x0C' ||
  c == '\r' || c == '\x85' || c == '\xA0' || c == '\u1680' ||
  ('\u2000' ≤ c && c ≤ '\u200A') || c == '\u2028' || c == '\u2029' ||
  c == '\u202F' || c == '\u205F' || c == '\u3000'

/-- `startsWithL pre cs` holds when `pre` is an initial segment of `cs`. -/
def startsWithL : List Char → List Char → Bool
  | [], _ => true
  | _ :: _, [] => false
  | p :: ps, c :: cs => p == c && startsWithL ps cs

/-- Substring test, modelling Go's `strings.Contains`. -/
def containsL (cs lit : List Char) : Bool :=
  match cs with
  | [] => startsWithL lit []
  | _ :: rest => startsWithL lit cs || containsL rest lit

/-- `strings.Contains note lit` on strings. -/
def containsStr (s lit : String) : Bool := containsL s.data lit.data

/-- `strings.TrimSpace line == ""`: every character is whitespace. -/
def isBlankGo (s : String) : Bool := s.data.all isGoSpace

/-! ## Calendar timestamps (`time.Time`, restricted to the fields used) -/

structure OrgTime where
  year : Nat
  month : Nat
  day : Nat
  hour : Nat
  minute : Nat
  second : Nat
deriving DecidableEq, Repr

/-- One clock interval; `End = none` models Go's `End *time.Time = nil`
(a still-running clock). -/
structure ClockEntry where
  Start : OrgTime
  End : Option OrgTime
deriving DecidableEq, Repr

/-! ### `time.Parse` for the fixed layouts of `org.go`

`parseOrgDate` tries `2006-01-02 Mon 15:04`, `2006-01-02 Mon`, `2006-01-02`
in order; `parseClockTimestamp` tries `2006-01-02 Mon 15:04`,
`2006-01-02 Mon 15:04:05`.  Go's parser requires two digits for the
zero-padded fields, four for the year, one or two for the `15` hour field,
matches the weekday name case-insensitively without checking it against the
date, requires the value to be fully consumed, and range-checks month, day
(against the month length), hour and minute. -/

def digitVal (c : Char) : Option Nat :=
  if c.isDigit then some (c.toNat - 48) else none

/-- Exactly two digits (Go `getnum` with `fixed = true`). -/
def num2 : List Char → Option (Nat × List Char)
  | a :: b :: rest =>
    match digitVal a, digitVal b with
    | some x, some y => some (x * 10 + y, rest)
    | _, _ => none
  | _ => none

/-- Exactly four digits (the `2006` year field). -/
def num4 : List Char → Option (Nat × List Char)
  | a :: b :: c :: d :: rest =>
    match digitVal a, digitVal b, digitVal c, digitVal d with
    | some w, some x, some y, some z => some (((w * 10 + x) * 10 + y) * 10 + z, rest)
    | _, _, _, _ => none
  | _ => none

/-- One or two digits (Go `getnum` with `fixed = false`, the `15` hour). -/
def num12 : List Char → Option (Nat × List Char)
  | [] => none
  | [a] => (digitVal a).map fun x => (x, [])
  | a :: b :: rest =>
    match digitVal a with
    | none => none
    | some x =>
      match digitVal b with
      | some y => some (x * 10 + y, rest)
      | none => some (x, b :: rest)

def expectChar (c : Char) : List Char → Option (List Char)
  | x :: rest => if x == c then some rest else none
  | [] => none

def lowerC (c : Char) : Char :=
  if 'A' ≤ c && c ≤ 'Z' then Char.ofNat (c.toNat + 32) else c

def dayNamesShort : List (List Char) :=
  ["Sun".data, "Mon".data, "Tue".data, "Wed".data, "Thu".data, "Fri".data, "Sat".data]

/-- Go's `lookup(shortDayNames, value)`: a case-insensitive three-letter
weekday abbreviation, consumed without being checked against the date. -/
def matchDayName : List Char → Option (List Char)
  | a :: b :: c :: rest =>
    if dayNamesShort.any (fun n => n.map lowerC == [lowerC a, lowerC b, lowerC c])
    then some rest else none
  | _ => none

def isLeap (y : Nat) : Bool := y % 4 == 0 && (y % 100 != 0 || y % 400 == 0)

def daysIn (y m : Nat) : Nat :=
  if m == 2 then (if isLeap y then 29 else 28)
  else if m == 4 || m == 6 || m == 9 || m == 11 then 30
  else 31

def validYMD (y mo d : Nat) : Bool :=
  1 ≤ mo && mo ≤ 12 && 1 ≤ d && d ≤ daysIn y mo

/-- The `2006-01-02` date fragment shared by every layout. -/
def scanYMD (cs : List Char) : Option (Nat × Nat × Nat × List Char) :=
  match num4 cs with
  | none => none
  | some (y, r1) =>
    match expectChar '-' r1 with
    | none => none
    | some r2 =>
      match num2 r2 with
      | none => none
      | some (mo, r3) =>
        match expectChar '-' r3 with
        | none => none
        | some r4 =>
          match num2 r4 with
          | none => none
          | some (d, r5) => some (y, mo, d, r5)

/-- Layout `2006-01-02`. -/
def layoutD (cs : List Char) : Option OrgTime :=
  match scanYMD cs with
  | some (y, mo, d, []) => if validYMD y mo d then some ⟨y, mo, d, 0, 0, 0⟩ else none
  | _ => none

/-- Layout `2006-01-02 Mon`. -/
def layoutDW (cs : List Char) : Option OrgTime :=
  match scanYMD cs with
  | none => none
  | some (y, mo, d, r) =>
    match expectChar ' ' r with
    | none => none
    | some r1 =>
      match matchDayName r1 with
      | some [] => if validYMD y mo d then some ⟨y, mo, d, 0, 0, 0⟩ else none
      | _ => none

/-- The `Mon 15:04` tail: weekday, space, hour, colon, minute. -/
def scanWHM (cs : List Char) : Option (Nat × Nat × List Char) :=
  match matchDayName cs with
  | none => none
  | some r1 =>
    match expectChar ' ' r1 with
    | none => none
    | some r2 =>
      match num12 r2 with
      | none => none
      | some (h, r3) =>
        match expectChar ':' r3 with
        | none => none
        | some r4 =>
          match num2 r4 with
          | none => none
          | some (mi, r5) => some (h, mi, r5)

/-- Layout `2006-01-02 Mon 15:04`. -/
def layoutDWHM (cs : List Char) : Option OrgTime :=
  match scanYMD cs with
  | none => none
  | some (y, mo, d, r) =>
    match expectChar ' ' r with
    | none => none
    | some r1 =>
      match scanWHM r1 with
      | some (h, mi, []) =>
        if validYMD y mo d && h ≤ 23 && mi ≤ 59 then some ⟨y, mo, d, h, mi, 0⟩ else none
      | _ => none

/-- Layout `2006-01-02 Mon 15:04:05`. -/
def layoutDWHMS (cs : List Char) : Option OrgTime :=
  match scanYMD cs with
  | none => none
  | some (y, mo, d, r) =>
    match expectChar ' ' r with
    | none => none
    | some r1 =>
      match scanWHM r1 with
      | some (h, mi, r2) =>
        match expectChar ':' r2 with
        | none => none
        | some r3 =>
          match num2 r3 with
          | some (s, []) =>
            if validYMD y mo d && h ≤ 23 && mi ≤ 59 && s ≤ 59
            then some ⟨y, mo, d, h, mi, s⟩ else none
          | _ => none
      | none => none

/-- `parseOrgDate` of `org.go`: the three layouts tried in order; the first
success wins, any failure falls through, total failure yields `none`
(the Go error value). -/
def parseOrgDate (s : String) : Option OrgTime :=
  match layoutDWHM s.data with
  | some t => some t
  | none =>
    match layoutDW s.data with
    | some t => some t
    | none => layoutD s.data

/-- `parseClockTimestamp` of `org.go`: layouts
`2006-01-02 Mon 15:04` then `2006-01-02 Mon 15:04:05`. -/
def parseClockTimestamp (s : String) : Option OrgTime :=
  match layoutDWHM s.data with
  | some t => some t
  | none => layoutDWHMS s.data

/-! ### Formatting (`formatOrgDate`, `formatClockTimestamp`) -/

def pad2 (n : Nat) : String := if n < 10 then "0" ++ toString n else toString n

def pad4 (n : Nat) : String :=
  if n < 10 then "000" ++ toString n
  else if n < 100 then "00" ++ toString n
  else if n < 1000 then "0" ++ toString n
  else toString n

/-- Weekday of a Gregorian date (Sakamoto's congruence, 0 = Sunday), the
value Go's `Format("... Mon ...")` prints for the stored date. -/
def weekdayIdx (y m d : Nat) : Nat :=
  let adj := [0, 3, 2, 5, 0, 3, 5, 1, 4, 6, 2, 4]
  let y1 := if m < 3 then y - 1 else y
  (y1 + y1 / 4 + y1 / 400 + adj.getD (m - 1) 0 + d - y1 / 100) % 7

def weekdayName (y m d : Nat) : String :=
  ["Sun", "Mon", "Tue", "Wed", "Thu", "Fri", "Sat"].getD (weekdayIdx y m d) "Sun"

/-- `formatOrgDate`: Go layout `2006-01-02 Mon`. -/
def formatOrgDate (t : OrgTime) : String :=
  pad4 t.year ++ "-" ++ pad2 t.month ++ "-" ++ pad2 t.day ++ " " ++
    weekdayName t.year t.month t.day

/-- `formatClockTimestamp`: Go layout `2006-01-02 Mon 15:04`. -/
def formatClockTimestamp (t : OrgTime) : String :=
  pad4 t.year ++ "-" ++ pad2 t.month ++ "-" ++ pad2 t.day ++ " " ++
    weekdayName t.year t.month t.day ++ " " ++ pad2 t.hour ++ ":" ++ pad2 t.minute

/-! ## The parser patterns of `org.go`

Each Go `regexp` is modelled as a scanning function with the same match
semantics on the lines the scanner produces (which never contain `\n`). -/

/-- The optional `(TODO|PROG|BLOCK|DONE)` alternation as a literal-prefix
test (the four keywords start with distinct letters, so alternation order
is immaterial). -/
def stripState (cs : List Char) : Option (String × List Char) :=
  if startsWithL "TODO".data cs then some ("TODO", cs.drop 4)
  else if startsWithL "PROG".data cs then some ("PROG", cs.drop 4)
  else if startsWithL "BLOCK".data cs then some ("BLOCK", cs.drop 5)
  else if startsWithL "DONE".data cs then some ("DONE", cs.drop 4)
  else none

/-- `headingPattern = ^(\*+)\s+(?:(TODO|PROG|BLOCK|DONE)\s+)?(.+)$`, with
Go's leftmost-first submatch semantics spelled out:

* the star run is maximal (a shorter run leaves a `*`, which `\s` rejects);
* the whitespace run after the stars is maximal, except that when the line
  ends in whitespace the final whitespace character is surrendered to the
  mandatory nonempty `(.+)`;
* the optional state group is preferred when the keyword is followed by at
  least one whitespace character that still leaves a nonempty title.

Returns `(level, state, title)` on a match; `state = ""` when the group did
not participate (Go's `matches[2]`). -/
def headingMatchL (cs : List Char) : Option (Nat × String × String) :=
  let stars := cs.takeWhile (· == '*')
  let rest1 := cs.dropWhile (· == '*')
  if stars.length == 0 then none
  else
    let ws1 := rest1.takeWhile isRegexSpace
    let rest2 := rest1.dropWhile isRegexSpace
    if ws1.length == 0 then none
    else
      match rest2 with
      | [] =>
        -- line = stars ++ whitespace: `.+` claims the final whitespace char
        if 2 ≤ ws1.length
        then some (stars.length, "", String.mk [ws1.getLast?.getD ' '])
        else none
      | _ :: _ =>
        match stripState rest2 with
        | some (kw, after) =>
          let ws2 := after.takeWhile isRegexSpace
          let rest3 := after.dropWhile isRegexSpace
          if ws2.length == 0 then some (stars.length, "", String.mk rest2)
          else if rest3.length != 0 then some (stars.length, kw, String.mk rest3)
          else if 2 ≤ ws2.length then some (stars.length, kw, String.mk [ws2.getLast?.getD ' '])
          else some (stars.length, "", String.mk rest2)
        | none => some (stars.length, "", String.mk rest2)

/-- Searches for `lit` (e.g. `SCHEDULED:`) followed by `\s*<([^>]+)>`,
returning the bracketed capture of the leftmost match.  Models
`scheduledPattern`/`deadlinePattern`, which are unanchored. -/
def findAngleAfter (lit : List Char) (cs : List Char) : Option (List Char) :=
  match cs with
  | [] => none
  | _ :: rest =>
    match
      (if startsWithL lit cs then
        let afterLit := (cs.drop lit.length).dropWhile isRegexSpace
        match afterLit with
        | '<' :: t =>
          let cap := t.takeWhile (· != '>')
          let rest2 := t.dropWhile (· != '>')
          if cap.length != 0 && rest2.length != 0 then some cap else none
        | _ => none
      else none) with
    | some cap => some cap
    | none => findAngleAfter lit rest

/-- `clockPattern = CLOCK:\s*\[([^\]]+)\](?:--\[([^\]]+)\])?`, unanchored;
returns the start capture and, when the optional range group matched, the
end capture. -/
def findClockAt (cs : List Char) : Option (List Char × Option (List Char)) :=
  if startsWithL "CLOCK:".data cs then
    let afterLit := (cs.drop 6).dropWhile isRegexSpace
    match afterLit with
    | '[' :: t =>
      let cap1 := t.takeWhile (· != ']')
      let rest2 := t.dropWhile (· != ']')
      if cap1.length != 0 && rest2.length != 0 then
        let t2 := rest2.drop 1
        if startsWithL "--[".data t2 then
          let t3 := t2.drop 3
          let cap2 := t3.takeWhile (· != ']')
          let rest3 := t3.dropWhile (· != ']')
          if cap2.length != 0 && rest3.length != 0 then some (cap1, some cap2)
          else some (cap1, none)
        else some (cap1, none)
      else none
    | _ => none
  else none

def findClock (cs : List Char) : Option (List Char × Option (List Char)) :=
  match cs with
  | [] => none
  | _ :: rest =>
    match findClockAt cs with
    | some r => some r
    | none => findClock rest

/-- `drawerStart = ^\s*:LOGBOOK:\s*$`. -/
def drawerStartL (line : String) : Bool :=
  let a := line.data.dropWhile isRegexSpace
  startsWithL ":LOGBOOK:".data a && (a.drop 9).all isRegexSpace

/-- `drawerEnd = ^\s*:END:\s*$`. -/
def drawerEndL (line : String) : Bool :=
  let a := line.data.dropWhile isRegexSpace
  startsWithL ":END:".data a && (a.drop 5).all isRegexSpace

/-- `codeBlockStart = ^\s*#\+BEGIN_SRC`. -/
def codeBlockStartL (line : String) : Bool :=
  startsWithL "#+BEGIN_SRC".data (line.data.dropWhile isRegexSpace)

/-- `codeBlockEnd = ^\s*#\+END_SRC`. -/
def codeBlockEndL (line : String) : Bool :=
  startsWithL "#+END_SRC".data (line.data.dropWhile isRegexSpace)

/-! ## The data model (`TodoState`, `Item`) -/

/-- `type TodoState string`; the five values used are `""` (`StateNone`),
`"TODO"`, `"PROG"`, `"BLOCK"`, `"DONE"`. -/
abbrev TodoState := String

def stateOKb (s : TodoState) : Bool :=
  s == "" || s == "TODO" || s == "PROG" || s == "BLOCK" || s == "DONE"

/-- A single org heading node, mirroring `Item` of `org.go` field for field.
`Scheduled`/`Deadline` model the Go `*time.Time` fields via `Option`. -/
inductive Item where
  | mk (Level : Nat) (State : TodoState) (Title : String)
       (Scheduled : Option OrgTime) (Deadline : Option OrgTime)
       (Notes : List String) (Children : List Item)
       (Folded : Bool) (ClockEntries : List ClockEntry) : Item

def Item.Level : Item → Nat | .mk l _ _ _ _ _ _ _ _ => l
def Item.State : Item → TodoState | .mk _ s _ _ _ _ _ _ _ => s
def Item.Title : Item → String | .mk _ _ t _ _ _ _ _ _ => t
def Item.Scheduled : Item → Option OrgTime | .mk _ _ _ sc _ _ _ _ _ => sc
def Item.Deadline : Item → Option OrgTime | .mk _ _ _ _ dl _ _ _ _ => dl
def Item.Notes : Item → List String | .mk _ _ _ _ _ n _ _ _ => n
def Item.Children : Item → List Item | .mk _ _ _ _ _ _ ch _ _ => ch
def Item.Folded : Item → Bool | .mk _ _ _ _ _ _ _ f _ => f
def Item.ClockEntries : Item → List ClockEntry | .mk _ _ _ _ _ _ _ _ ce => ce

/-- `currentItem.Notes = append(currentItem.Notes, line)`. -/
def Item.addNote : Item → String → Item
  | .mk l s t sc dl n ch f ce, line => .mk l s t sc dl (n ++ [line]) ch f ce

def Item.setScheduled : Item → Option OrgTime → Item
  | .mk l s t _ dl n ch f ce, sc => .mk l s t sc dl n ch f ce

def Item.setDeadline : Item → Option OrgTime → Item
  | .mk l s t sc _ n ch f ce, dl => .mk l s t sc dl n ch f ce

def Item.addClock : Item → ClockEntry → Item
  | .mk l s t sc dl n ch f ce, e => .mk l s t sc dl n ch f (ce ++ [e])

def Item.withClockEntries : Item → List ClockEntry → Item
  | .mk l s t sc dl n ch f _, ce => .mk l s t sc dl n ch f ce

def Item.setState : Item → TodoState → Item
  | .mk l _ t sc dl n ch f ce, s => .mk l s t sc dl n ch f ce

/-- `parent.Children = append(parent.Children, item)`. -/
def attachChild : Item → Item → Item
  | .mk l s t sc dl n ch f ce, x => .mk l s t sc dl n (ch ++ [x]) f ce

mutual
/-- Structural equality on items; models Go pointer equality `it == target`
on ownership trees (see the header comment). -/
def ibeq : Item → Item → Bool
  | .mk l s t sc dl n ch f ce, .mk l2 s2 t2 sc2 dl2 n2 ch2 f2 ce2 =>
    l == l2 && s == s2 && t == t2 && sc == sc2 && dl == dl2 &&
    n == n2 && lbeq ch ch2 && f == f2 && ce == ce2
def lbeq : List Item → List Item → Bool
  | [], [] => true
  | h :: t, h2 :: t2 => ibeq h h2 && lbeq t t2
  | _, _ => false
end

/-! ## The parser (`ParseOrgFile`'s scan loop)

Go keeps `orgFile.Items`, a stack of `*Item` and a `currentItem` pointer,
and mutates items in place: a new heading is appended to its parent's
`Children` (or the root list) at creation, and later lines mutate it
through `currentItem`/the stack.  The functional model keeps the still-open
spine on the stack only and attaches each item to the element below it when
it is popped; at end of input the whole stack is popped.  `currentItem` is
always the top of the stack (it is reassigned exactly when a push happens),
and `currentItem == nil` iff the stack is empty. -/

structure PState where
  roots : List Item
  stack : List Item
  inCodeBlock : Bool
  inLogbookDrawer : Bool

def initState : PState := ⟨[], [], false, false⟩

/-- Pops `x` and every further stack entry whose `Level ≥ level`, attaching
each popped item as the last child of the entry below it (or as the last
root when the stack empties). -/
def goPop (level : Nat) : Item → List Item → List Item → List Item × List Item
  | x, [], roots => ([], roots ++ [x])
  | x, g :: rest, roots =>
    if level ≤ g.Level then goPop level (attachChild g x) rest roots
    else (attachChild g x :: rest, roots)

/-- `for len(itemStack) > 0 && itemStack[len(itemStack)-1].Level >= level {pop}`
together with the deferred attachment of the functional model. -/
def popWhile (level : Nat) (stack : List Item) (roots : List Item) :
    List Item × List Item :=
  match stack with
  | [] => ([], roots)
  | h :: rest => if level ≤ h.Level then goPop level h rest roots else (h :: rest, roots)

/-- `if currentItem != nil { currentItem.Notes = append(..., line) }`. -/
def addNoteTop : List Item → String → List Item
  | [], _ => []
  | h :: t, line => h.addNote line :: t

/-- The `SCHEDULED` check of the content branch. -/
def applySched (line : String) (it : Item) : Item :=
  match findAngleAfter "SCHEDULED:".data line.data with
  | some cap =>
    match parseOrgDate (String.mk cap) with
    | some t => it.setScheduled (some t)
    | none => it
  | none => it

/-- The `DEADLINE` check of the content branch. -/
def applyDeadline (line : String) (it : Item) : Item :=
  match findAngleAfter "DEADLINE:".data line.data with
  | some cap =>
    match parseOrgDate (String.mk cap) with
    | some t => it.setDeadline (some t)
    | none => it
  | none => it

/-- The `CLOCK` check of the content branch: a parsed start appends an
entry; the end is set only when the range group matched and parsed. -/
def applyClock (line : String) (it : Item) : Item :=
  match findClock line.data with
  | some (c1, c2) =>
    match parseClockTimestamp (String.mk c1) with
    | some startT =>
      it.addClock ⟨startT, c2.bind fun c => parseClockTimestamp (String.mk c)⟩
    | none => it
  | none => it

/-- The whole content branch (`else if currentItem != nil`): the three
directive patterns in order, then the conditional verbatim append — a line
whose trimmed text is empty is appended only when notes are nonempty. -/
def noteStep (line : String) : List Item → List Item
  | [] => []
  | h :: t =>
    let h1 := applyClock line (applyDeadline line (applySched line h))
    (if !isBlankGo line || h1.Notes.length != 0 then h1.addNote line else h1) :: t

/-- One iteration of the scan loop, with the branch order of the Go code. -/
def parseStep (st : PState) (line : String) : PState :=
  if drawerStartL line then
    { st with inLogbookDrawer := true, stack := addNoteTop st.stack line }
  else if drawerEndL line && st.inLogbookDrawer then
    { st with inLogbookDrawer := false, stack := addNoteTop st.stack line }
  else if codeBlockStartL line then
    { st with inCodeBlock := true, stack := addNoteTop st.stack line }
  else if codeBlockEndL line then
    { st with inCodeBlock := false, stack := addNoteTop st.stack line }
  else if st.inCodeBlock then
    { st with stack := addNoteTop st.stack line }
  else
    match headingMatchL line.data with
    | some (lvl, stt, title) =>
      let p := popWhile lvl st.stack st.roots
      { st with stack := Item.mk lvl stt title none none [] [] false [] :: p.1,
                roots := p.2 }
    | none => { st with stack := noteStep line st.stack }

/-- The scan loop over a list of lines, with the end-of-input pop of the
whole stack. -/
def parseOrgLines (ls : List String) : List Item :=
  let st := ls.foldl parseStep initState
  (popWhile 0 st.stack st.roots).2

/-- `bufio.ScanLines`: split on `\n`, drop one trailing `\r` per line, no
empty final token. -/
def splitAux : List Char → List Char → List (List Char)
  | [], [] => []
  | [], acc => [dropCR acc.reverse]
  | '\n' :: rest, acc => dropCR acc.reverse :: splitAux rest []
  | c :: rest, acc => splitAux rest (c :: acc)
where
  dropCR (l : List Char) : List Char :=
    match l.getLast? with
    | some '\r' => l.dropLast
    | _ => l

def splitLinesStr (s : String) : List String := (splitAux s.data []).map String.mk

/-- Parsing a whole text: `ParseOrgFile` minus the file I/O. -/
def parseOrgString (text : String) : List Item := parseOrgLines (splitLinesStr text)

/-! ## The serializer (`writeItem`, `Save`) -/

/-- The heading line assembled by `writeItem`: the stars, the state token
when the state is nonempty, and the title. -/
def headingStr (l : Nat) (st : TodoState) (t : String) : String :=
  String.mk (List.replicate l '*') ++ (if st != "" then " " ++ st else "") ++ " " ++ t

/-- One `CLOCK:` drawer line: open entries emit only the start bracket. -/
def clockLine (e : ClockEntry) : String :=
  "CLOCK: [" ++ formatClockTimestamp e.Start ++ "]" ++
    (match e.End with
     | some t => "--[" ++ formatClockTimestamp t ++ "]"
     | none => "")

/-- The `hasScheduled`/`hasDeadline`/`hasLogbook` flag loop of `writeItem`,
folded over the notes exactly as the Go `for` accumulates them. -/
def notesFlags : List String → Bool × Bool × Bool
  | [] => (false, false, false)
  | n :: rest =>
    let r := notesFlags rest
    (containsStr n "SCHEDULED:" || r.1,
     containsStr n "DEADLINE:" || r.2.1,
     containsStr n ":LOGBOOK:" || r.2.2)

mutual
/-- `writeItem` of `org.go`, producing the lines it writes (each Go
`WriteString` chunk is one line plus `\n`). -/
def writeItem : Item → List String
  | .mk l st t sc dl notes ch _ ce =>
    let flags := notesFlags notes
    headingStr l st t ::
      ((match sc with
        | some tm => if flags.1 then [] else ["SCHEDULED: <" ++ formatOrgDate tm ++ ">"]
        | none => []) ++
       (match dl with
        | some tm => if flags.2.1 then [] else ["DEADLINE: <" ++ formatOrgDate tm ++ ">"]
        | none => []) ++
       (if ce.length != 0 && !flags.2.2 then
          ":LOGBOOK:" :: ce.map clockLine ++ [":END:"]
        else []) ++
       notes ++ writeItems ch)
def writeItems : List Item → List String
  | [] => []
  | h :: t => writeItem h ++ writeItems t
end

/-- `OrgFile.Save` body: every root through `writeItem`, each line
terminated by `\n`. -/
def serializeOrg (items : List Item) : String :=
  String.join ((writeItems items).map (· ++ "\n"))

/-! ## Document-model operations -/

/-- `Item.CycleState`: the Go `switch` on the state string; values outside
the five cases are left unchanged (no `default` arm). -/
def CycleState : Item → Item
  | .mk l s t sc dl n ch f ce =>
    .mk l
      (if s == "" then "TODO"
       else if s == "TODO" then "PROG"
       else if s == "PROG" then "BLOCK"
       else if s == "BLOCK" then "DONE"
       else if s == "DONE" then ""
       else s)
      t sc dl n ch f ce

/-- `model.cycleStateBackward` of `ui.go`. -/
def cycleStateBackward : Item → Item
  | .mk l s t sc dl n ch f ce =>
    .mk l
      (if s == "" then "DONE"
       else if s == "TODO" then ""
       else if s == "PROG" then "TODO"
       else if s == "BLOCK" then "PROG"
       else if s == "DONE" then "BLOCK"
       else s)
      t sc dl n ch f ce

/-- `Item.IsClockedIn`: some entry has no end. -/
def IsClockedIn (it : Item) : Bool := it.ClockEntries.any fun e => e.End.isNone

/-- `Item.ClockIn`: refuse when already clocked in, else append an open
entry starting now.  The returned `Bool` is the Go return value. -/
def ClockIn (it : Item) (now : OrgTime) : Item × Bool :=
  if IsClockedIn it then (it, false)
  else (it.addClock ⟨now, none⟩, true)

/-- The backward scan of `Item.ClockOut` (`for i := len-1; i >= 0; i--`):
the entry closest to the end with no `End` is closed; `none` when every
entry is closed. -/
def clockOutList (now : OrgTime) : List ClockEntry → Option (List ClockEntry)
  | [] => none
  | e :: rest =>
    match clockOutList now rest with
    | some l => some (e :: l)
    | none => if e.End.isNone then some (⟨e.Start, some now⟩ :: rest) else none

/-- `Item.ClockOut`. -/
def ClockOut (it : Item) (now : OrgTime) : Item × Bool :=
  match clockOutList now it.ClockEntries with
  | some l => (it.withClockEntries l, true)
  | none => (it, false)

mutual
/-- `OrgFile.GetAllItems`: depth-first flatten that skips the children of
folded items. -/
def getAllItemsList : List Item → List Item
  | [] => []
  | h :: t => h :: (if h.Folded then [] else getAllItemsFrom h) ++ getAllItemsList t
def getAllItemsFrom : Item → List Item
  | .mk _ _ _ _ _ _ ch _ _ => getAllItemsList ch
end

def GetAllItems (items : List Item) : List Item := getAllItemsList items

mutual
/-- `removeFromList` inside `model.deleteItem`: drop every node equal to
the target (with its whole subtree, since its children are not visited),
and filter the children of every kept node. -/
def removeFromList : List Item → Item → List Item
  | [], _ => []
  | it :: rest, target =>
    if ibeq it target then removeFromList rest target
    else removeChildren it target :: removeFromList rest target
def removeChildren : Item → Item → Item
  | .mk l s t sc dl n ch f ce, target => .mk l s t sc dl n (removeFromList ch target) f ce
end

/-- The delete flow the caller sees (`updateConfirmDelete`, key `y`):
`m.deleteItem(m.itemToDelete)` followed by `m.setStatus("Item deleted")` —
the status does not depend on whether the target was found. -/
def deleteItemOp (items : List Item) (target : Item) : List Item × String :=
  (removeFromList items target, "Item deleted")

mutual
/-- `swapInList` inside `model.swapItems`: for each position, check the
adjacent pair in either order, then descend into the left element's
children; after the loop, descend into the last element's children. -/
def swapInList (a b : Item) : List Item → Option (List Item)
  | [] => none
  | [x] =>
    match swapInChildren a b x with
    | some x2 => some [x2]
    | none => none
  | x :: y :: rest =>
    if ibeq x a && ibeq y b then some (y :: x :: rest)
    else if ibeq x b && ibeq y a then some (y :: x :: rest)
    else
      match swapInChildren a b x with
      | some x2 => some (x2 :: y :: rest)
      | none =>
        match swapInList a b (y :: rest) with
        | some l => some (x :: l)
        | none => none
def swapInChildren (a b : Item) : Item → Option Item
  | .mk l s t sc dl n ch f ce =>
    match swapInList a b ch with
    | some c => some (.mk l s t sc dl n c f ce)
    | none => none
end

/-- `model.swapItems`: the boolean result of the search is discarded; a
failed search leaves the tree as it was. -/
def swapItems (items : List Item) (a b : Item) : List Item :=
  (swapInList a b items).getD items

mutual
/-- Mirror of `swapInList`'s search: is the pair `(a, b)` (in either order)
adjacent in some list of the tree, in the order the search visits lists? -/
def adjIn (a b : Item) : List Item → Bool
  | [] => false
  | [x] => adjInChildren a b x
  | x :: y :: rest =>
    (ibeq x a && ibeq y b) || (ibeq x b && ibeq y a) ||
    adjInChildren a b x || adjIn a b (y :: rest)
def adjInChildren (a b : Item) : Item → Bool
  | .mk _ _ _ _ _ _ ch _ _ => adjIn a b ch
end

mutual
/-- Does a node structurally equal to `target` occur anywhere in the
forest?  (The reference-identity search of `deleteItem`, under the
structural model of pointer equality.) -/
def occursIn (target : Item) : List Item → Bool
  | [] => false
  | it :: rest => ibeq it target || occursInChildren target it || occursIn target rest
def occursInChildren (target : Item) : Item → Bool
  | .mk _ _ _ _ _ _ ch _ _ => occursIn target ch
end

/-! ## Spec-side serializer shape and the round-trip apparatus -/

mutual
/-- Modelled from the spec: the serializer's emission with every
"synthesize only if absent" branch suppressed — heading, notes verbatim,
children.  Used to factor the round-trip proof. -/
def emitNoSynth : Item → List String
  | .mk l st t _ _ notes ch _ _ => headingStr l st t :: notes ++ emitList ch
def emitList : List Item → List String
  | [] => []
  | h :: t => emitNoSynth h ++ emitList t
end

mutual
/-- Modelled from the spec (§ serializer): heading, then a scheduled line
only if no note contains the scheduled marker, then a deadline line only if
no note contains the deadline marker, then a full drawer only if no note
contains the drawer-start marker, then the notes verbatim, then the
children.  The comparison target for the `writeItem` decomposition claim. -/
def writeItemSpec : Item → List String
  | .mk l st t sc dl notes ch _ ce =>
    [headingStr l st t] ++
    (match sc with
     | some tm =>
       if notes.any (fun n => containsStr n "SCHEDULED:") then []
       else ["SCHEDULED: <" ++ formatOrgDate tm ++ ">"]
     | none => []) ++
    (match dl with
     | some tm =>
       if notes.any (fun n => containsStr n "DEADLINE:") then []
       else ["DEADLINE: <" ++ formatOrgDate tm ++ ">"]
     | none => []) ++
    (if ce.length != 0 && !notes.any (fun n => containsStr n ":LOGBOOK:") then
       [":LOGBOOK:"] ++ ce.map clockLine ++ [":END:"]
     else []) ++
    notes ++ writeItemsSpec ch
def writeItemsSpec : List Item → List String
  | [] => []
  | h :: t => writeItemSpec h ++ writeItemsSpec t
end

mutual
/-- The precondition of the round-trip claim, as a predicate on the parsed
tree: every derivable field's directive line is already present in notes
(the serializer's three "synthesize only if absent" markers). -/
def directivesOKb : Item → Bool
  | .mk _ _ _ sc dl notes ch _ ce =>
    (sc.isNone || notes.any fun n => containsStr n "SCHEDULED:") &&
    (dl.isNone || notes.any fun n => containsStr n "DEADLINE:") &&
    (ce.isEmpty || notes.any fun n => containsStr n ":LOGBOOK:") &&
    directivesOKList ch
def directivesOKList : List Item → Bool
  | [] => true
  | h :: t => directivesOKb h && directivesOKList t
end

/-- One scan-loop iteration in strict mode: identical to `parseStep`, but
refusing (`none`) exactly when the iteration would lose or rewrite text —
a line with no open item, a heading whose canonical rendering differs from
the raw line, or a whitespace-only content line dropped because notes are
still empty. -/
def parseStepX (st : PState) (line : String) : Option PState :=
  if drawerStartL line then
    if st.stack.isEmpty then none
    else some { st with inLogbookDrawer := true, stack := addNoteTop st.stack line }
  else if drawerEndL line && st.inLogbookDrawer then
    if st.stack.isEmpty then none
    else some { st with inLogbookDrawer := false, stack := addNoteTop st.stack line }
  else if codeBlockStartL line then
    if st.stack.isEmpty then none
    else some { st with inCodeBlock := true, stack := addNoteTop st.stack line }
  else if codeBlockEndL line then
    if st.stack.isEmpty then none
    else some { st with inCodeBlock := false, stack := addNoteTop st.stack line }
  else if st.inCodeBlock then
    if st.stack.isEmpty then none
    else some { st with stack := addNoteTop st.stack line }
  else
    match headingMatchL line.data with
    | some (lvl, stt, title) =>
      if headingStr lvl stt title == line then
        let p := popWhile lvl st.stack st.roots
        some { st with stack := Item.mk lvl stt title none none [] [] false [] :: p.1,
                       roots := p.2 }
      else none
    | none =>
      match st.stack with
      | [] => none
      | h :: _ =>
        if isBlankGo line && h.Notes.isEmpty then none
        else some { st with stack := noteStep line st.stack }

/-- Strict replay of the scan loop over all lines. -/
def strictReplay : PState → List String → Option PState
  | st, [] => some st
  | st, l :: ls =>
    match parseStepX st l with
    | some st2 => strictReplay st2 ls
    | none => none

/-- The lines a text would round-trip through: accepted by the strict
replay from the initial state. -/
def strictOK (ls : List String) : Bool := (strictReplay initState ls).isSome

/-- Emission of the still-open stack after collapse, bottom-of-stack
emitted first. -/
def emitStack : List Item → List String
  | [] => []
  | h :: t => emitStack t ++ emitNoSynth h

/-- All text the parse state accounts for: completed roots then the open
spine. -/
def stateEmit (st : PState) : List String := emitList st.roots ++ emitStack st.stack

/-- Does the head of the stack (the `currentItem`) still have no children?
True between iterations: children are attached only while popping, after
which a fresh item is pushed. -/
def headChildless (st : PState) : Bool :=
  match st.stack with
  | [] => true
  | h :: _ => h.Children.isEmpty

/-- Rejoin lines with the `\n` each `WriteString` appends. -/
def joinNL (ls : List String) : String := String.join (ls.map (· ++ "\n"))

/-! ## A joint induction principle for the nested tree -/

mutual
def itemRecAux {P : Item → Prop} {Q : List Item → Prop}
    (hnil : Q [])
    (hcons : ∀ h t, P h → Q t → Q (h :: t))
    (hmk : ∀ l s t sc dl n ch f ce, Q ch → P (Item.mk l s t sc dl n ch f ce)) :
    ∀ it, P it
  | .mk l s t sc dl n ch f ce => hmk l s t sc dl n ch f ce (listRecAux hnil hcons hmk ch)
def listRecAux {P : Item → Prop} {Q : List Item → Prop}
    (hnil : Q [])
    (hcons : ∀ h t, P h → Q t → Q (h :: t))
    (hmk : ∀ l s t sc dl n ch f ce, Q ch → P (Item.mk l s t sc dl n ch f ce)) :
    ∀ l, Q l
  | [] => hnil
  | h :: t => hcons h t (itemRecAux hnil hcons hmk h) (listRecAux hnil hcons hmk t)
end

/-- Joint structural induction over an item and all nested children
lists. -/
theorem Item.jointInduction {P : Item → Prop} {Q : List Item → Prop}
    (hnil : Q [])
    (hcons : ∀ h t, P h → Q t → Q (h :: t))
    (hmk : ∀ l s t sc dl n ch f ce, Q ch → P (Item.mk l s t sc dl n ch f ce)) :
    (∀ it, P it) ∧ (∀ l, Q l) :=
  ⟨itemRecAux hnil hcons hmk, listRecAux hnil hcons hmk⟩

/-! ## Small accessor lemmas -/

theorem Notes_addNote (it : Item) (l : String) :
    (it.addNote l).Notes = it.Notes ++ [l] := by
  cases it; rfl

theorem Notes_setScheduled (it : Item) (sc : Option OrgTime) :
    (it.setScheduled sc).Notes = it.Notes := by
  cases it; rfl

theorem Notes_setDeadline (it : Item) (dl : Option OrgTime) :
    (it.setDeadline dl).Notes = it.Notes := by
  cases it; rfl

theorem Notes_addClock (it : Item) (e : ClockEntry) :
    (it.addClock e).Notes = it.Notes := by
  cases it; rfl

theorem Notes_applySched (line : String) (it : Item) :
    (applySched line it).Notes = it.Notes := by
  unfold applySched
  split
  · split
    · apply Notes_setScheduled
    · rfl
  · rfl

theorem Notes_applyDeadline (line : String) (it : Item) :
    (applyDeadline line it).Notes = it.Notes := by
  unfold applyDeadline
  split
  · split
    · apply Notes_setDeadline
    · rfl
  · rfl

theorem Notes_applyClock (line : String) (it : Item) :
    (applyClock line it).Notes = it.Notes := by
  unfold applyClock
  split
  · split
    · apply Notes_addClock
    · rfl
  · rfl

theorem ClockEntries_withClockEntries (it : Item) (ce : List ClockEntry) :
    (it.withClockEntries ce).ClockEntries = ce := by
  cases it; rfl

theorem ClockEntries_addClock (it : Item) (e : ClockEntry) :
    (it.addClock e).ClockEntries = it.ClockEntries ++ [e] := by
  cases it; rfl

/-! ## C4 — state cycling -/

/-- C4: on each of the five enumerated states, `CycleState` applied five
times is the identity, and `cycleStateBackward` is its exact two-sided
inverse. -/
theorem cycle_state_five_and_inverse (it : Item)
    (h : it.State = "" ∨ it.State = "TODO" ∨ it.State = "PROG" ∨
         it.State = "BLOCK" ∨ it.State = "DONE") :
    CycleState (CycleState (CycleState (CycleState (CycleState it)))) = it ∧
    cycleStateBackward (CycleState it) = it ∧
    CycleState (cycleStateBackward it) = it := by
  obtain ⟨l, s, t, sc, dl, n, ch, f, ce⟩ := it
  simp only [Item.State] at h
  rcases h with h | h | h | h | h <;> subst h <;>
    exact ⟨rfl, rfl, rfl⟩

/-- Witness for C4 at the concrete state `PROG`. -/
theorem cycle_state_five_and_inverse_witness :
    CycleState (CycleState (CycleState (CycleState (CycleState
      (Item.mk 1 "PROG" "w" none none [] [] false []))))) =
      Item.mk 1 "PROG" "w" none none [] [] false [] :=
  (cycle_state_five_and_inverse (Item.mk 1 "PROG" "w" none none [] [] false [])
    (Or.inr (Or.inr (Or.inl rfl)))).1

/-! ## C5 — clock-in / clock-out contract -/

theorem clockOutList_all_closed (now : OrgTime) :
    ∀ l : List ClockEntry, (l.all fun e => e.End.isSome) = true →
      clockOutList now l = none := by
  intro l h
  induction l with
  | nil => rfl
  | cons e rest ih =>
    simp only [List.all_cons, Bool.and_eq_true] at h
    unfold clockOutList
    rw [ih h.2]
    have : e.End.isNone = false := by
      cases hE : e.End
      · rw [hE] at h; simp at h
      · rfl
    simp [this]

theorem clockOutList_last_open (now : OrgTime) :
    ∀ (a : List ClockEntry) (e : ClockEntry) (b : List ClockEntry),
      e.End = none → (b.all fun x => x.End.isSome) = true →
      clockOutList now (a ++ e :: b) = some (a ++ ⟨e.Start, some now⟩ :: b) := by
  intro a e b he hb
  induction a with
  | nil =>
    rw [List.nil_append, List.nil_append]
    unfold clockOutList
    rw [clockOutList_all_closed now b hb, he]
    rfl
  | cons x a ih =>
    rw [List.cons_append]
    unfold clockOutList
    rw [ih]
    simp

/-- C5: `ClockIn` refuses (returning `false`, entries unchanged) exactly
when an open entry exists, else appends one open entry starting now and
returns `true`; `ClockOut` refuses when every entry is closed, else closes
the most-recently-appended open entry (every entry after it being closed)
and returns `true`. -/
theorem clock_in_out_contract (it : Item) (now : OrgTime) :
    (IsClockedIn it = true → ClockIn it now = (it, false)) ∧
    (IsClockedIn it = false →
      ClockIn it now = (it.addClock ⟨now, none⟩, true)) ∧
    ((it.ClockEntries.all fun e => e.End.isSome) = true →
      ClockOut it now = (it, false)) ∧
    (∀ a e b, it.ClockEntries = a ++ e :: b → e.End = none →
      (b.all fun x => x.End.isSome) = true →
      ClockOut it now = (it.withClockEntries (a ++ ⟨e.Start, some now⟩ :: b), true)) := by
  refine ⟨fun h => ?_, fun h => ?_, fun h => ?_, fun a e b hsplit he hb => ?_⟩
  · simp [ClockIn, h]
  · simp [ClockIn, h]
  · unfold ClockOut
    rw [clockOutList_all_closed now _ h]
  · unfold ClockOut
    rw [hsplit, clockOutList_last_open now a e b he hb]

/-- Witness for C5: a concrete item with one closed then one open entry. -/
theorem clock_in_out_contract_witness :
    ClockIn (Item.mk 1 "" "w" none none [] [] false
        [⟨⟨2024, 1, 1, 0, 0, 0⟩, none⟩]) ⟨2024, 1, 2, 0, 0, 0⟩ =
      (Item.mk 1 "" "w" none none [] [] false [⟨⟨2024, 1, 1, 0, 0, 0⟩, none⟩], false) ∧
    ClockOut (Item.mk 1 "" "w" none none [] [] false
        [⟨⟨2024, 1, 1, 0, 0, 0⟩, some ⟨2024, 1, 1, 1, 0, 0⟩⟩, ⟨⟨2024, 1, 2, 0, 0, 0⟩, none⟩])
        ⟨2024, 1, 2, 3, 0, 0⟩ =
      (Item.mk 1 "" "w" none none [] [] false
        [⟨⟨2024, 1, 1, 0, 0, 0⟩, some ⟨2024, 1, 1, 1, 0, 0⟩⟩,
         ⟨⟨2024, 1, 2, 0, 0, 0⟩, some ⟨2024, 1, 2, 3, 0, 0⟩⟩], true) := by
  constructor
  · exact (clock_in_out_contract _ _).1 (by decide)
  · have h := (clock_in_out_contract
      (Item.mk 1 "" "w" none none [] [] false
        [⟨⟨2024, 1, 1, 0, 0, 0⟩, some ⟨2024, 1, 1, 1, 0, 0⟩⟩, ⟨⟨2024, 1, 2, 0, 0, 0⟩, none⟩])
      ⟨2024, 1, 2, 3, 0, 0⟩).2.2.2
      [⟨⟨2024, 1, 1, 0, 0, 0⟩, some ⟨2024, 1, 1, 1, 0, 0⟩⟩] ⟨⟨2024, 1, 2, 0, 0, 0⟩, none⟩ []
      (by decide) (by decide) (by decide)
    exact h

/-! ## C9 — at most one open clock entry -/

/-- The number of open clock entries of an item. -/
def openCount (it : Item) : Nat := it.ClockEntries.countP fun e => e.End.isNone

theorem clockOutList_countP (now : OrgTime) :
    ∀ l l2, clockOutList now l = some l2 →
      (l2.countP fun e => e.End.isNone) + 1 = l.countP fun e => e.End.isNone := by
  intro l
  induction l with
  | nil => intro l2 h; simp [clockOutList] at h
  | cons e rest ih =>
    intro l2 h
    unfold clockOutList at h
    cases hr : clockOutList now rest with
    | some l3 =>
      rw [hr] at h
      cases h
      have := ih l3 hr
      simp only [List.countP_cons]
      omega
    | none =>
      rw [hr] at h
      by_cases hE : e.End.isNone
      · simp only [hE, if_true] at h
        cases h
        simp [List.countP_cons, hE]
      · simp [hE] at h

/-- C9 (amended): `ClockIn` and `ClockOut` preserve the at-most-one-open
invariant (parsing arbitrary text does not, see the counterexample). -/
theorem open_clock_invariant_preserved (it : Item) (now : OrgTime)
    (h : openCount it ≤ 1) :
    openCount (ClockIn it now).1 ≤ 1 ∧ openCount (ClockOut it now).1 ≤ 1 := by
  constructor
  · unfold ClockIn
    by_cases hc : IsClockedIn it
    · simp [hc, h]
    · have hz : openCount it = 0 := by
        unfold openCount
        rw [List.countP_eq_zero]
        intro e he
        simp only [IsClockedIn, List.any_eq_true, not_exists] at hc
        push_neg at hc
        simpa using hc e he
      simp only [hc, if_false, Bool.false_eq_true]
      unfold openCount at hz ⊢
      rw [ClockEntries_addClock, List.countP_append]
      simp [hz]
  · unfold ClockOut
    cases hr : clockOutList now it.ClockEntries with
    | none => simpa using h
    | some l2 =>
      have := clockOutList_countP now it.ClockEntries l2 hr
      unfold openCount at h ⊢
      simp only [ClockEntries_withClockEntries]
      omega

/-- Witness for C9 (amended) at a concrete singleton-open item. -/
theorem open_clock_invariant_preserved_witness :
    openCount (ClockIn (Item.mk 1 "" "w" none none [] [] false
      [⟨⟨2024, 1, 1, 0, 0, 0⟩, none⟩]) ⟨2024, 1, 2, 0, 0, 0⟩).1 ≤ 1 :=
  (open_clock_invariant_preserved
    (Item.mk 1 "" "w" none none [] [] false [⟨⟨2024, 1, 1, 0, 0, 0⟩, none⟩])
    ⟨2024, 1, 2, 0, 0, 0⟩ (by decide)).1

/-- C9 counterexample: parsing a file with two open `CLOCK:` lines yields
an item with two open entries, violating the invariant as claimed for
"states produced by parsing arbitrary input text". -/
theorem open_clock_parse_cex :
    ((parseOrgString
        "* A\nCLOCK: [2024-01-15 Mon 10:00]\nCLOCK: [2024-01-15 Mon 11:00]\n").head?.map
      openCount) = some 2 := by decide

/-! ## C2 — retention of content lines -/

/-- Does this scan-loop iteration create a new item?  True exactly when the
line reaches the heading branch and matches `headingPattern`. -/
def createsItemb (st : PState) (line : String) : Bool :=
  !drawerStartL line && !(drawerEndL line && st.inLogbookDrawer) &&
  !codeBlockStartL line && !codeBlockEndL line && !st.inCodeBlock &&
  (headingMatchL line.data).isSome

/-- C2 (amended): a line processed while an item is open that does not
create a heading is appended verbatim to the open item's notes — whether
or not a directive pattern matched or a timestamp parse failed — except
that a line whose trimmed text is empty is dropped when the open item's
notes are still empty. -/
theorem content_line_retention (st : PState) (line : String) (h : Item)
    (t : List Item) (hs : st.stack = h :: t)
    (hc : createsItemb st line = false) :
    (parseStep st line).stack.head?.map Item.Notes = some (h.Notes ++ [line]) ∨
    (isBlankGo line = true ∧ h.Notes = [] ∧
      (parseStep st line).stack.head?.map Item.Notes = some h.Notes) := by
  unfold createsItemb at hc
  unfold parseStep
  by_cases h1 : drawerStartL line
  · left; simp [h1, hs, addNoteTop, Notes_addNote]
  · by_cases h2 : drawerEndL line && st.inLogbookDrawer
    · left; simp [h1, h2, hs, addNoteTop, Notes_addNote]
    · by_cases h3 : codeBlockStartL line
      · left; simp [h1, h2, h3, hs, addNoteTop, Notes_addNote]
      · by_cases h4 : codeBlockEndL line
        · left; simp [h1, h2, h3, h4, hs, addNoteTop, Notes_addNote]
        · by_cases h5 : st.inCodeBlock
          · left; simp [h1, h2, h3, h4, h5, hs, addNoteTop, Notes_addNote]
          · have hnone : headingMatchL line.data = none := by
              simp [h1, h2, h3, h4, h5] at hc
              exact Option.not_isSome_iff_eq_none.mp (by simp [hc])
            simp only [h1, h2, h3, h4, h5, hnone, if_false, Bool.false_eq_true]
            rw [hs]
            unfold noteStep
            have hN : (applyClock line (applyDeadline line (applySched line h))).Notes
                = h.Notes := by
              rw [Notes_applyClock, Notes_applyDeadline, Notes_applySched]
            by_cases hb : isBlankGo line
            · by_cases hn : h.Notes = []
              · right
                refine ⟨hb, hn, ?_⟩
                simp [hb, hn, hN]
              · left
                simp [hb, hn, hN, Notes_addNote, List.length_eq_zero]
            · left
              simp [hb, hN, Notes_addNote]

/-- Witness for C2 at a concrete open item and the line `x`. -/
theorem content_line_retention_witness :
    (parseStep ⟨[], [Item.mk 1 "" "A" none none [] [] false []], false, false⟩
        "x").stack.head?.map Item.Notes = some [("x" : String)] ∨
    (isBlankGo "x" = true ∧
      (Item.mk 1 "" "A" none none [] [] false [] : Item).Notes = [] ∧
      (parseStep ⟨[], [Item.mk 1 "" "A" none none [] [] false []], false, false⟩
        "x").stack.head?.map Item.Notes = some []) :=
  content_line_retention
    ⟨[], [Item.mk 1 "" "A" none none [] [] false []], false, false⟩ "x"
    (Item.mk 1 "" "A" none none [] [] false []) [] rfl (by decide)

/-- C2 counterexample: the empty line after `* A` is read while the item is
open and matches no heading, yet it is not appended — the parsed item has
no notes. -/
theorem blank_line_dropped_cex :
    headingMatchL "".data = none ∧
    (parseStep ⟨[], [Item.mk 1 "" "A" none none [] [] false []], false, false⟩
        "").stack.head?.map Item.Notes = some [] ∧
    (parseOrgLines ["* A", ""]).map Item.Notes = [[]] := by decide

/-! ## C7 — serializer emission order -/

theorem notesFlags_eq (notes : List String) :
    notesFlags notes =
      (notes.any fun n => containsStr n "SCHEDULED:",
       notes.any fun n => containsStr n "DEADLINE:",
       notes.any fun n => containsStr n ":LOGBOOK:") := by
  induction notes with
  | nil => rfl
  | cons n rest ih => simp [notesFlags, ih, List.any_cons]

/-- C7: `writeItem` emits exactly the heading, then each directive line
synthesized only if its marker text occurs in no note, then the full
drawer only if the drawer marker occurs in no note, then the notes
verbatim in order, then the children — the spec-shaped `writeItemSpec`. -/
theorem write_item_order : ∀ it, writeItem it = writeItemSpec it := by
  refine (Item.jointInduction
    (P := fun it => writeItem it = writeItemSpec it)
    (Q := fun l => writeItems l = writeItemsSpec l) rfl ?_ ?_).1
  · intro h t Ph Qt
    simp [writeItems, writeItemsSpec, Ph, Qt]
  · intro l s t sc dl n ch f ce Qch
    simp [writeItem, writeItemSpec, notesFlags_eq, Qch]

/-! ## C6 — delete -/

theorem ibeq_refl : ∀ it, ibeq it it = true := by
  refine (Item.jointInduction
    (P := fun it => ibeq it it = true)
    (Q := fun l => lbeq l l = true) rfl ?_ ?_).1
  · intro h t Ph Qt
    simp [lbeq, Ph, Qt]
  · intro l s t sc dl n ch f ce Qch
    simp [ibeq, Qch]

/-- C6 (amended): deleting a target that occurs nowhere in the tree leaves
it unchanged — but the caller-visible status is the same `"Item deleted"`
as for a successful delete (there is no not-found status); a matched head
is dropped together with its entire subtree. -/
theorem delete_contract (items : List Item) (target : Item) :
    (occursIn target items = false →
      deleteItemOp items target = (items, "Item deleted")) ∧
    (deleteItemOp (target :: items) target).1 = (deleteItemOp items target).1 := by
  have main : (∀ it, ∀ tg, occursInChildren tg it = false → removeChildren it tg = it) ∧
      (∀ l, ∀ tg, occursIn tg l = false → removeFromList l tg = l) :=
    Item.jointInduction
      (P := fun it => ∀ tg, occursInChildren tg it = false → removeChildren it tg = it)
      (Q := fun l => ∀ tg, occursIn tg l = false → removeFromList l tg = l)
      (fun _ _ => rfl)
      (by
        intro h t Ph Qt tg hocc
        simp only [occursIn, Bool.or_eq_false_iff] at hocc
        obtain ⟨⟨hb, hch⟩, hrest⟩ := hocc
        unfold removeFromList
        rw [hb]
        simp only [Bool.false_eq_true, if_false]
        rw [Ph tg hch, Qt tg hrest])
      (by
        intro l s t sc dl n ch f ce Qch tg hocc
        simp only [occursInChildren] at hocc
        unfold removeChildren
        rw [Qch tg hocc])
  constructor
  · intro h
    unfold deleteItemOp
    rw [main.2 items target h]
  · simp [deleteItemOp, removeFromList, ibeq_refl]

/-- Witness for C6: a concrete singleton tree and an absent target. -/
theorem delete_contract_witness :
    deleteItemOp [Item.mk 1 "" "A" none none [] [] false []]
        (Item.mk 1 "" "B" none none [] [] false []) =
      ([Item.mk 1 "" "A" none none [] [] false []], "Item deleted") :=
  (delete_contract [Item.mk 1 "" "A" none none [] [] false []]
    (Item.mk 1 "" "B" none none [] [] false [])).1 (by decide)

/-- C6 counterexample (the status half of the claim): an absent target is
reported with exactly the same status string as a successful delete — the
caller cannot see not-found. -/
theorem delete_status_cex :
    occursIn (Item.mk 1 "" "B" none none [] [] false [])
        [Item.mk 1 "" "A" none none [] [] false []] = false ∧
    (deleteItemOp [Item.mk 1 "" "A" none none [] [] false []]
        (Item.mk 1 "" "B" none none [] [] false [])).2 = "Item deleted" ∧
    (deleteItemOp [Item.mk 1 "" "A" none none [] [] false []]
        (Item.mk 1 "" "A" none none [] [] false [])).2 = "Item deleted" := by
  decide

/-! ## C8 — swap of adjacent items -/

/-- C8 (amended): `swapItems`' search succeeds exactly when the two items
are presently adjacent (in either order) within a single list of the tree
— no level condition is applied — and when no such adjacency exists the
tree is returned unchanged. -/
theorem swap_adjacent_contract (items : List Item) (a b : Item) :
    ((swapInList a b items).isSome = adjIn a b items) ∧
    (adjIn a b items = false → swapItems items a b = items) := by
  have main : (∀ it, (swapInChildren a b it).isSome = adjInChildren a b it) ∧
      (∀ l, (swapInList a b l).isSome = adjIn a b l) :=
    Item.jointInduction
      (P := fun it => (swapInChildren a b it).isSome = adjInChildren a b it)
      (Q := fun l => (swapInList a b l).isSome = adjIn a b l)
      rfl
      (by
        intro h t Ph Qt
        cases t with
        | nil =>
          simp only [swapInList, adjIn]
          rw [← Ph]
          cases hx : swapInChildren a b h <;> simp [hx]
        | cons y rest =>
          simp only [swapInList, adjIn]
          by_cases h1 : ibeq h a && ibeq y b
          · simp [h1]
          · by_cases h2 : ibeq h b && ibeq y a
            · simp [h1, h2]
            · simp only [h1, h2, Bool.false_eq_true, if_false, Bool.false_or]
              cases hx : swapInChildren a b h with
              | some x2 =>
                have : adjInChildren a b h = true := by rw [← Ph, hx]; rfl
                simp [this]
              | none =>
                have hPf : adjInChildren a b h = false := by rw [← Ph, hx]; rfl
                simp only [hPf, Bool.false_or]
                cases hy : swapInList a b (y :: rest) with
                | some l2 =>
                  have : adjIn a b (y :: rest) = true := by rw [← Qt, hy]; rfl
                  simp [this]
                | none =>
                  have : adjIn a b (y :: rest) = false := by rw [← Qt, hy]; rfl
                  simp [this])
      (by
        intro l s t sc dl n ch f ce Qch
        simp only [swapInChildren, adjInChildren]
        rw [← Qch]
        cases hx : swapInList a b ch <;> simp [hx])
  refine ⟨main.2 items, fun h => ?_⟩
  unfold swapItems
  cases hx : swapInList a b items with
  | none => rfl
  | some l2 =>
    have := main.2 items
    rw [hx, h] at this
    simp at this

/-- Witness for C8: no adjacency in a two-root tree with unequal titles,
so the swap is the identity. -/
theorem swap_adjacent_contract_witness :
    swapItems [Item.mk 1 "" "A" none none [] [] false []]
        (Item.mk 1 "" "B" none none [] [] false [])
        (Item.mk 1 "" "C" none none [] [] false []) =
      [Item.mk 1 "" "A" none none [] [] false []] :=
  (swap_adjacent_contract [Item.mk 1 "" "A" none none [] [] false []]
    (Item.mk 1 "" "B" none none [] [] false [])
    (Item.mk 1 "" "C" none none [] [] false [])).2 (by decide)

/-- C8 counterexample: the parse of `* P`, `*** S`, `** Y` makes `S` and
`Y` adjacent children of `P` with different levels, and `swapItems`
swaps them anyway — the request is not rejected. -/
theorem swap_level_cex :
    (Item.mk 3 "" "S" none none [] [] false []).Level ≠
      (Item.mk 2 "" "Y" none none [] [] false []).Level ∧
    (parseOrgString "* P\n*** S\n** Y\n").map (fun it => it.Children.map Item.Title) =
      [["S", "Y"]] ∧
    (swapItems (parseOrgString "* P\n*** S\n** Y\n")
        (Item.mk 3 "" "S" none none [] [] false [])
        (Item.mk 2 "" "Y" none none [] [] false [])).map
      (fun it => it.Children.map Item.Title) = [["Y", "S"]] := by
  decide

/-! ## Parse-tree invariants (C3, C10) -/

/-- Per-node form of the nesting invariant: every immediate child is
strictly deeper. -/
def nodeLevelsOKb (it : Item) : Bool :=
  it.Children.all fun c => decide (it.Level < c.Level)

/-- Per-node well-formedness of C10: positive level, nonempty title, state
among the five enumeration values. -/
def nodeWfb (it : Item) : Bool :=
  decide (1 ≤ it.Level) && (it.Title != "") && stateOKb it.State

/-- Both per-node invariants at once (they are established by the same
induction over the scan loop). -/
def nodeInv (it : Item) : Bool := nodeLevelsOKb it && nodeWfb it

mutual
/-- `p` holds at this node and at every node below it. -/
def allDeepb (p : Item → Bool) : Item → Bool
  | .mk l s t sc dl n ch f ce => p (.mk l s t sc dl n ch f ce) && allDeepList p ch
def allDeepList (p : Item → Bool) : List Item → Bool
  | [] => true
  | h :: t => allDeepb p h && allDeepList p t
end

/-- Levels strictly decrease from the top of the parse stack downward. -/
def stackChain : List Item → Bool
  | [] => true
  | [_] => true
  | h :: g :: t => decide (g.Level < h.Level) && stackChain (g :: t)

theorem allDeepList_append (p : Item → Bool) :
    ∀ l1 l2, allDeepList p (l1 ++ l2) = (allDeepList p l1 && allDeepList p l2) := by
  intro l1 l2
  induction l1 with
  | nil => simp [allDeepList]
  | cons h t ih => simp [allDeepList, ih, Bool.and_assoc]

theorem allDeep_mono (p q : Item → Bool) (hpq : ∀ it, p it = true → q it = true) :
    (∀ it, allDeepb p it = true → allDeepb q it = true) ∧
    (∀ l, allDeepList p l = true → allDeepList q l = true) := by
  refine Item.jointInduction
    (P := fun it => allDeepb p it = true → allDeepb q it = true)
    (Q := fun l => allDeepList p l = true → allDeepList q l = true)
    (fun h => h) ?_ ?_
  · intro h t Ph Qt hall
    simp only [allDeepList, Bool.and_eq_true] at hall ⊢
    exact ⟨Ph hall.1, Qt hall.2⟩
  · intro l s t sc dl n ch f ce Qch hall
    simp only [allDeepb, Bool.and_eq_true] at hall ⊢
    exact ⟨hpq _ hall.1, Qch hall.2⟩

theorem Level_attachChild (g x : Item) : (attachChild g x).Level = g.Level := by
  cases g; rfl

/-- Attaching a strictly deeper child preserves the joint invariant. -/
theorem allDeep_attachChild (g x : Item)
    (hg : allDeepb nodeInv g = true) (hx : allDeepb nodeInv x = true)
    (hlt : g.Level < x.Level) :
    allDeepb nodeInv (attachChild g x) = true := by
  obtain ⟨l, s, t, sc, dl, n, ch, f, ce⟩ := g
  simp only [Item.Level] at hlt
  simp only [attachChild, allDeepb, Bool.and_eq_true] at hg ⊢
  refine ⟨?_, ?_⟩
  · simp only [nodeInv, nodeLevelsOKb, nodeWfb, Item.Children, Item.Level, Item.Title,
      Item.State, Bool.and_eq_true, List.all_append, List.all_cons, List.all_nil] at hg ⊢
    obtain ⟨⟨hlev, hwf⟩, _⟩ := hg
    exact ⟨⟨hlev, by simpa using hlt⟩, hwf⟩
  · rw [allDeepList_append]
    simp only [allDeepList, Bool.and_eq_true]
    exact ⟨hg.2, hx, trivial⟩

/-- A modified head of equal level keeps the stack chain. -/
theorem stackChain_congr (h h2 : Item) (t : List Item)
    (hL : h2.Level = h.Level) (hc : stackChain (h :: t) = true) :
    stackChain (h2 :: t) = true := by
  cases t with
  | nil => rfl
  | cons g rest =>
    simp only [stackChain, Bool.and_eq_true, decide_eq_true_eq] at hc ⊢
    exact ⟨hL ▸ hc.1, hc.2⟩

/-- The invariants carried through the pop loop. -/
theorem goPop_inv (lvl : Nat) :
    ∀ (rest : List Item) (x : Item) (roots : List Item),
      stackChain (x :: rest) = true →
      allDeepb nodeInv x = true →
      allDeepList nodeInv rest = true →
      allDeepList nodeInv roots = true →
      allDeepList nodeInv (goPop lvl x rest roots).1 = true ∧
      allDeepList nodeInv (goPop lvl x rest roots).2 = true ∧
      stackChain (goPop lvl x rest roots).1 = true ∧
      (∀ h2 t2, (goPop lvl x rest roots).1 = h2 :: t2 → h2.Level < lvl) := by
  intro rest
  induction rest with
  | nil =>
    intro x roots _ hx _ hroots
    refine ⟨rfl, ?_, rfl, fun h2 t2 h => nomatch h⟩
    rw [show (goPop lvl x [] roots).2 = roots ++ [x] from rfl]
    rw [allDeepList_append]
    simp [allDeepList, hx, hroots]
  | cons g rest2 ih =>
    intro x roots hchain hx hrest hroots
    have hglt : g.Level < x.Level := by
      simp only [stackChain, Bool.and_eq_true, decide_eq_true_eq] at hchain
      exact hchain.1
    have hchain2 : stackChain (g :: rest2) = true := by
      simp only [stackChain, Bool.and_eq_true] at hchain
      exact hchain.2
    have hg : allDeepb nodeInv g = true := by
      simp only [allDeepList, Bool.and_eq_true] at hrest
      exact hrest.1
    have hrest2 : allDeepList nodeInv rest2 = true := by
      simp only [allDeepList, Bool.and_eq_true] at hrest
      exact hrest.2
    have hattach : allDeepb nodeInv (attachChild g x) = true :=
      allDeep_attachChild g x hg hx hglt
    have hchainA : stackChain (attachChild g x :: rest2) = true :=
      stackChain_congr g (attachChild g x) rest2 (Level_attachChild g x) hchain2
    unfold goPop
    by_cases hle : lvl ≤ g.Level
    · simp only [hle, if_true]
      exact ih (attachChild g x) roots hchainA hattach hrest2 hroots
    · simp only [hle, if_false]
      refine ⟨?_, hroots, hchainA, ?_⟩
      · simp only [allDeepList, Bool.and_eq_true]
        exact ⟨hattach, hrest2⟩
      · intro h2 t2 heq
        cases heq
        rw [Level_attachChild]
        omega

/-- The invariants through `popWhile`. -/
theorem popWhile_inv (lvl : Nat) (stack roots : List Item)
    (hchain : stackChain stack = true)
    (hstack : allDeepList nodeInv stack = true)
    (hroots : allDeepList nodeInv roots = true) :
    allDeepList nodeInv (popWhile lvl stack roots).1 = true ∧
    allDeepList nodeInv (popWhile lvl stack roots).2 = true ∧
    stackChain (popWhile lvl stack roots).1 = true ∧
    (∀ h2 t2, (popWhile lvl stack roots).1 = h2 :: t2 → h2.Level < lvl) := by
  cases stack with
  | nil => exact ⟨rfl, hroots, rfl, fun h2 t2 h => nomatch h⟩
  | cons h rest =>
    have hh : allDeepb nodeInv h = true := by
      simp only [allDeepList, Bool.and_eq_true] at hstack
      exact hstack.1
    have hrest : allDeepList nodeInv rest = true := by
      simp only [allDeepList, Bool.and_eq_true] at hstack
      exact hstack.2
    unfold popWhile
    by_cases hle : lvl ≤ h.Level
    · simp only [hle, if_true]
      exact goPop_inv lvl rest h roots hchain hh hrest hroots
    · simp only [hle, if_false]
      exact ⟨hstack, hroots, hchain, fun h2 t2 heq => by cases heq; omega⟩

/-! ### The content branch touches nothing the invariants read -/

theorem allDeep_addNote (it : Item) (line : String) :
    allDeepb nodeInv (it.addNote line) = allDeepb nodeInv it := by
  cases it; rfl

theorem Level_addNote (it : Item) (line : String) :
    (it.addNote line).Level = it.Level := by
  cases it; rfl

theorem allDeep_setScheduled (it : Item) (sc : Option OrgTime) :
    allDeepb nodeInv (it.setScheduled sc) = allDeepb nodeInv it := by
  cases it; rfl

theorem Level_setScheduled (it : Item) (sc : Option OrgTime) :
    (it.setScheduled sc).Level = it.Level := by
  cases it; rfl

theorem allDeep_setDeadline (it : Item) (dl : Option OrgTime) :
    allDeepb nodeInv (it.setDeadline dl) = allDeepb nodeInv it := by
  cases it; rfl

theorem Level_setDeadline (it : Item) (dl : Option OrgTime) :
    (it.setDeadline dl).Level = it.Level := by
  cases it; rfl

theorem allDeep_addClock (it : Item) (e : ClockEntry) :
    allDeepb nodeInv (it.addClock e) = allDeepb nodeInv it := by
  cases it; rfl

theorem Level_addClock (it : Item) (e : ClockEntry) :
    (it.addClock e).Level = it.Level := by
  cases it; rfl

theorem allDeep_applySched (line : String) (it : Item) :
    allDeepb nodeInv (applySched line it) = allDeepb nodeInv it := by
  unfold applySched
  split
  · split
    · apply allDeep_setScheduled
    · rfl
  · rfl

theorem Level_applySched (line : String) (it : Item) :
    (applySched line it).Level = it.Level := by
  unfold applySched
  split
  · split
    · apply Level_setScheduled
    · rfl
  · rfl

theorem allDeep_applyDeadline (line : String) (it : Item) :
    allDeepb nodeInv (applyDeadline line it) = allDeepb nodeInv it := by
  unfold applyDeadline
  split
  · split
    · apply allDeep_setDeadline
    · rfl
  · rfl

theorem Level_applyDeadline (line : String) (it : Item) :
    (applyDeadline line it).Level = it.Level := by
  unfold applyDeadline
  split
  · split
    · apply Level_setDeadline
    · rfl
  · rfl

theorem allDeep_applyClock (line : String) (it : Item) :
    allDeepb nodeInv (applyClock line it) = allDeepb nodeInv it := by
  unfold applyClock
  split
  · split
    · apply allDeep_addClock
    · rfl
  · rfl

theorem Level_applyClock (line : String) (it : Item) :
    (applyClock line it).Level = it.Level := by
  unfold applyClock
  split
  · split
    · apply Level_addClock
    · rfl
  · rfl

/-- The invariants survive appending a note to the open item. -/
theorem addNoteTop_inv (stack : List Item) (line : String)
    (hstack : allDeepList nodeInv stack = true) (hchain : stackChain stack = true) :
    allDeepList nodeInv (addNoteTop stack line) = true ∧
    stackChain (addNoteTop stack line) = true := by
  cases stack with
  | nil => exact ⟨rfl, rfl⟩
  | cons h t =>
    simp only [allDeepList, Bool.and_eq_true] at hstack
    refine ⟨?_, stackChain_congr h (h.addNote line) t (Level_addNote h line) hchain⟩
    simp only [addNoteTop, allDeepList, Bool.and_eq_true]
    exact ⟨(allDeep_addNote h line).trans (by rw [hstack.1]) |>.symm ▸ rfl, hstack.2⟩

/-- The invariants survive the whole content branch. -/
theorem noteStep_inv (line : String) (stack : List Item)
    (hstack : allDeepList nodeInv stack = true) (hchain : stackChain stack = true) :
    allDeepList nodeInv (noteStep line stack) = true ∧
    stackChain (noteStep line stack) = true := by
  cases stack with
  | nil => exact ⟨rfl, rfl⟩
  | cons h t =>
    simp only [allDeepList, Bool.and_eq_true] at hstack
    have hD : allDeepb nodeInv (applyClock line (applyDeadline line (applySched line h)))
        = true := by
      rw [allDeep_applyClock, allDeep_applyDeadline, allDeep_applySched]
      exact hstack.1
    have hL : (applyClock line (applyDeadline line (applySched line h))).Level = h.Level := by
      rw [Level_applyClock, Level_applyDeadline, Level_applySched]
    unfold noteStep
    by_cases hc : !isBlankGo line ||
        (applyClock line (applyDeadline line (applySched line h))).Notes.length != 0
    · simp only [hc, if_true]
      constructor
      · simp only [allDeepList, Bool.and_eq_true]
        exact ⟨by rw [allDeep_addNote]; exact hD, hstack.2⟩
      · exact stackChain_congr h _ t (by rw [Level_addNote, hL]) hchain
    · simp only [hc, if_false, Bool.false_eq_true]
      constructor
      · simp only [allDeepList, Bool.and_eq_true]
        exact ⟨hD, hstack.2⟩
      · exact stackChain_congr h _ t hL hchain

/-! ### What a heading match guarantees about the new item -/

theorem stripState_cases (cs : List Char) (kw : String) (after : List Char)
    (h : stripState cs = some (kw, after)) :
    kw = "TODO" ∨ kw = "PROG" ∨ kw = "BLOCK" ∨ kw = "DONE" := by
  unfold stripState at h
  split at h
  · left; cases h; rfl
  · split at h
    · right; left; cases h; rfl
    · split at h
      · right; right; left; cases h; rfl
      · split at h
        · right; right; right; cases h; rfl
        · cases h

theorem String_mk_bne_empty (cs : List Char) (h : cs ≠ []) :
    (String.mk cs != "") = true := by
  simp only [bne_iff_ne, ne_eq]
  intro hEq
  exact h (by simpa using congrArg String.data hEq)

/-- Everything `headingPattern` promises about its captures: at least one
star, a nonempty title, and a state among the five enumeration values. -/
theorem headingMatch_wf (cs : List Char) (lvl : Nat) (st tl : String)
    (h : headingMatchL cs = some (lvl, st, tl)) :
    1 ≤ lvl ∧ (tl != "") = true ∧ stateOKb st = true := by
  simp only [headingMatchL] at h
  split at h
  · cases h
  · rename_i hstars
    have hlvl : 1 ≤ (cs.takeWhile (· == '*')).length := by
      rcases Nat.eq_zero_or_pos (cs.takeWhile (· == '*')).length with hz | hp
      · rw [hz] at hstars; simp at hstars
      · exact hp
    split at h
    · cases h
    · split at h
      · -- rest2 = []: all-whitespace tail
        split at h
        · cases h
          exact ⟨hlvl, String_mk_bne_empty _ (by simp), rfl⟩
        · cases h
      · -- rest2 = _ :: _
        rename_i hd tlr heqr
        split at h
        · -- stripState succeeded
          rename_i kw after hstrip
          have hkw := stripState_cases _ kw after hstrip
          split at h
          · cases h
            refine ⟨hlvl, String_mk_bne_empty _ (by rw [heqr]; simp), rfl⟩
          · split at h
            · rename_i hr3
              cases h
              refine ⟨hlvl, String_mk_bne_empty _ ?_, ?_⟩
              · intro hx
                rw [hx] at hr3
                simp at hr3
              · rcases hkw with h | h | h | h <;> (rw [h]; rfl)
            · split at h
              · cases h
                refine ⟨hlvl, String_mk_bne_empty _ (by simp), ?_⟩
                rcases hkw with h | h | h | h <;> (rw [h]; rfl)
              · cases h
                refine ⟨hlvl, String_mk_bne_empty _ (by rw [heqr]; simp), rfl⟩
        · -- no state keyword
          cases h
          refine ⟨hlvl, String_mk_bne_empty _ (by rw [heqr]; simp), rfl⟩

/-- A freshly created heading item satisfies both per-node invariants
throughout (it has no children yet). -/
theorem allDeep_newItem (lvl : Nat) (st tl : String)
    (h1 : 1 ≤ lvl) (h2 : (tl != "") = true) (h3 : stateOKb st = true) :
    allDeepb nodeInv (Item.mk lvl st tl none none [] [] false []) = true := by
  simp [allDeepb, allDeepList, nodeInv, nodeLevelsOKb, nodeWfb, Item.Children,
    Item.Level, Item.Title, Item.State, h1, h2, h3]

/-! ### The invariants through one step, the fold, and the final pop -/

/-- The parse-state invariant: both per-node predicates hold everywhere in
the completed roots and in the open spine, whose levels strictly
decrease downward. -/
def InvS (st : PState) : Prop :=
  allDeepList nodeInv st.roots = true ∧ allDeepList nodeInv st.stack = true ∧
    stackChain st.stack = true

theorem parseStep_inv (st : PState) (line : String) (h : InvS st) :
    InvS (parseStep st line) := by
  obtain ⟨hroots, hstack, hchain⟩ := h
  unfold parseStep
  by_cases h1 : drawerStartL line
  · have := addNoteTop_inv st.stack line hstack hchain
    exact ⟨by simpa [h1] using hroots, by simp [h1, this.1], by simp [h1, this.2]⟩
  · by_cases h2 : drawerEndL line && st.inLogbookDrawer
    · have := addNoteTop_inv st.stack line hstack hchain
      exact ⟨by simpa [h1, h2] using hroots, by simp [h1, h2, this.1],
        by simp [h1, h2, this.2]⟩
    · by_cases h3 : codeBlockStartL line
      · have := addNoteTop_inv st.stack line hstack hchain
        exact ⟨by simpa [h1, h2, h3] using hroots, by simp [h1, h2, h3, this.1],
          by simp [h1, h2, h3, this.2]⟩
      · by_cases h4 : codeBlockEndL line
        · have := addNoteTop_inv st.stack line hstack hchain
          exact ⟨by simpa [h1, h2, h3, h4] using hroots,
            by simp [h1, h2, h3, h4, this.1], by simp [h1, h2, h3, h4, this.2]⟩
        · by_cases h5 : st.inCodeBlock
          · have := addNoteTop_inv st.stack line hstack hchain
            exact ⟨by simpa [h1, h2, h3, h4, h5] using hroots,
              by simp [h1, h2, h3, h4, h5, this.1],
              by simp [h1, h2, h3, h4, h5, this.2]⟩
          · simp only [h1, h2, h3, h4, h5, if_false, Bool.false_eq_true]
            cases hm : headingMatchL line.data with
            | none =>
              have := noteStep_inv line st.stack hstack hchain
              exact ⟨hroots, this.1, this.2⟩
            | some trip =>
              obtain ⟨lvl, stt, title⟩ := trip
              have hwf := headingMatch_wf line.data lvl stt title hm
              have hpop := popWhile_inv lvl st.stack st.roots hchain hstack hroots
              have hnew := allDeep_newItem lvl stt title hwf.1 hwf.2.1 hwf.2.2
              refine ⟨hpop.2.1, ?_, ?_⟩
              · show allDeepList nodeInv (Item.mk lvl stt title none none [] [] false [] ::
                  (popWhile lvl st.stack st.roots).1) = true
                simp only [allDeepList, Bool.and_eq_true]
                exact ⟨hnew, hpop.1⟩
              · show stackChain (Item.mk lvl stt title none none [] [] false [] ::
                  (popWhile lvl st.stack st.roots).1) = true
                cases hq : (popWhile lvl st.stack st.roots).1 with
                | nil => rfl
                | cons h2 t2 =>
                  have hlt := hpop.2.2.2 h2 t2 hq
                  have hch := hpop.2.2.1
                  rw [hq] at hch
                  simp only [stackChain, Bool.and_eq_true, decide_eq_true_eq]
                  exact ⟨by simpa [Item.Level] using hlt, hch⟩

theorem foldl_inv (ls : List String) :
    ∀ st : PState, InvS st → InvS (ls.foldl parseStep st) := by
  induction ls with
  | nil => exact fun st h => h
  | cons l rest ih =>
    intro st h
    exact ih (parseStep st l) (parseStep_inv st l h)

/-- Every forest the parser returns satisfies both per-node invariants at
every node. -/
theorem parseOrgLines_inv (ls : List String) :
    allDeepList nodeInv (parseOrgLines ls) = true := by
  have h := foldl_inv ls initState ⟨rfl, rfl, rfl⟩
  unfold parseOrgLines
  exact (popWhile_inv 0 (ls.foldl parseStep initState).stack
    (ls.foldl parseStep initState).roots h.2.2 h.2.1 h.1).2.1

/-- C3: in every tree the parser produces, each node's children have
strictly greater level than the node — at every depth. -/
theorem child_level_strict (text : String) :
    allDeepList nodeLevelsOKb (parseOrgString text) = true := by
  refine (allDeep_mono nodeInv nodeLevelsOKb (fun it hit => ?_)).2 _
    (parseOrgLines_inv (splitLinesStr text))
  simp only [nodeInv, Bool.and_eq_true] at hit
  exact hit.1

/-- C10: every item the parser produces has level at least 1, a nonempty
title, and a state among the five enumeration values. -/
theorem parsed_items_wellformed (text : String) :
    allDeepList nodeWfb (parseOrgString text) = true := by
  refine (allDeep_mono nodeInv nodeWfb (fun it hit => ?_)).2 _
    (parseOrgLines_inv (splitLinesStr text))
  simp only [nodeInv, Bool.and_eq_true] at hit
  exact hit.2

/-! ## The round trip (C1)

The proof factors through `emitNoSynth`: (a) under the directive
precondition the serializer emits exactly heading/notes/children with no
synthesized line, and (b) in strict-replay mode every consumed line lands,
verbatim and in order, in the emission of the parse state. -/

theorem emitList_append :
    ∀ l1 l2 : List Item, emitList (l1 ++ l2) = emitList l1 ++ emitList l2 := by
  intro l1 l2
  induction l1 with
  | nil => rfl
  | cons h t ih => simp [emitList, ih]

theorem emit_attachChild (g x : Item) :
    emitNoSynth (attachChild g x) = emitNoSynth g ++ emitNoSynth x := by
  obtain ⟨l, s, t, sc, dl, n, ch, f, ce⟩ := g
  simp [attachChild, emitNoSynth, emitList_append, emitList]

theorem emit_addNote (it : Item) (line : String) (h : it.Children = []) :
    emitNoSynth (it.addNote line) = emitNoSynth it ++ [line] := by
  obtain ⟨l, s, t, sc, dl, n, ch, f, ce⟩ := it
  simp only [Item.Children] at h
  subst h
  simp [Item.addNote, emitNoSynth, emitList]

theorem emit_setScheduled (it : Item) (sc : Option OrgTime) :
    emitNoSynth (it.setScheduled sc) = emitNoSynth it := by
  cases it; rfl

theorem emit_setDeadline (it : Item) (dl : Option OrgTime) :
    emitNoSynth (it.setDeadline dl) = emitNoSynth it := by
  cases it; rfl

theorem emit_addClock (it : Item) (e : ClockEntry) :
    emitNoSynth (it.addClock e) = emitNoSynth it := by
  cases it; rfl

theorem emit_applySched (line : String) (it : Item) :
    emitNoSynth (applySched line it) = emitNoSynth it := by
  unfold applySched
  split
  · split
    · apply emit_setScheduled
    · rfl
  · rfl

theorem emit_applyDeadline (line : String) (it : Item) :
    emitNoSynth (applyDeadline line it) = emitNoSynth it := by
  unfold applyDeadline
  split
  · split
    · apply emit_setDeadline
    · rfl
  · rfl

theorem emit_applyClock (line : String) (it : Item) :
    emitNoSynth (applyClock line it) = emitNoSynth it := by
  unfold applyClock
  split
  · split
    · apply emit_addClock
    · rfl
  · rfl

theorem Children_addNote (it : Item) (line : String) :
    (it.addNote line).Children = it.Children := by
  cases it; rfl

theorem Children_setScheduled (it : Item) (sc : Option OrgTime) :
    (it.setScheduled sc).Children = it.Children := by
  cases it; rfl

theorem Children_setDeadline (it : Item) (dl : Option OrgTime) :
    (it.setDeadline dl).Children = it.Children := by
  cases it; rfl

theorem Children_addClock (it : Item) (e : ClockEntry) :
    (it.addClock e).Children = it.Children := by
  cases it; rfl

theorem Children_applySched (line : String) (it : Item) :
    (applySched line it).Children = it.Children := by
  unfold applySched
  split
  · split
    · apply Children_setScheduled
    · rfl
  · rfl

theorem Children_applyDeadline (line : String) (it : Item) :
    (applyDeadline line it).Children = it.Children := by
  unfold applyDeadline
  split
  · split
    · apply Children_setDeadline
    · rfl
  · rfl

theorem Children_applyClock (line : String) (it : Item) :
    (applyClock line it).Children = it.Children := by
  unfold applyClock
  split
  · split
    · apply Children_addClock
    · rfl
  · rfl

/-- Popping rearranges the tree but emits the same text, with the carried
item's emission at the end. -/
theorem goPop_emit (lvl : Nat) :
    ∀ (rest : List Item) (x : Item) (roots : List Item),
      emitList (goPop lvl x rest roots).2 ++ emitStack (goPop lvl x rest roots).1 =
        emitList roots ++ emitStack rest ++ emitNoSynth x := by
  intro rest
  induction rest with
  | nil =>
    intro x roots
    show emitList (roots ++ [x]) ++ emitStack [] = _
    simp [emitList_append, emitList, emitStack]
  | cons g rest2 ih =>
    intro x roots
    unfold goPop
    by_cases hle : lvl ≤ g.Level
    · simp only [hle, if_true]
      rw [ih (attachChild g x) roots, emit_attachChild]
      simp [emitStack, List.append_assoc]
    · simp only [hle, if_false]
      show emitList roots ++ emitStack (attachChild g x :: rest2) = _
      simp [emitStack, emit_attachChild, List.append_assoc]

theorem popWhile_emit (lvl : Nat) (stack roots : List Item) :
    emitList (popWhile lvl stack roots).2 ++ emitStack (popWhile lvl stack roots).1 =
      emitList roots ++ emitStack stack := by
  cases stack with
  | nil => simp [popWhile, emitStack]
  | cons h rest =>
    unfold popWhile
    by_cases hle : lvl ≤ h.Level
    · simp only [hle, if_true]
      rw [goPop_emit]
      simp [emitStack, List.append_assoc]
    · simp only [hle, if_false]

theorem goPop_zero :
    ∀ (rest : List Item) (x : Item) (roots : List Item),
      (goPop 0 x rest roots).1 = [] := by
  intro rest
  induction rest with
  | nil => intro x roots; rfl
  | cons g rest2 ih =>
    intro x roots
    unfold goPop
    simp only [Nat.zero_le, if_true]
    exact ih (attachChild g x) roots

theorem popWhile_zero (stack roots : List Item) : (popWhile 0 stack roots).1 = [] := by
  cases stack with
  | nil => rfl
  | cons h rest =>
    unfold popWhile
    simp only [Nat.zero_le, if_true]
    exact goPop_zero rest h roots

/-- Under the directive precondition every synthesis branch of `writeItem`
is suppressed, so the serializer emits exactly heading/notes/children. -/
theorem writeItem_noSynth :
    (∀ it, directivesOKb it = true → writeItem it = emitNoSynth it) ∧
    (∀ l, directivesOKList l = true → writeItems l = emitList l) := by
  refine Item.jointInduction
    (P := fun it => directivesOKb it = true → writeItem it = emitNoSynth it)
    (Q := fun l => directivesOKList l = true → writeItems l = emitList l)
    (fun _ => rfl) ?_ ?_
  · intro h t Ph Qt hok
    simp only [directivesOKList, Bool.and_eq_true] at hok
    simp only [writeItems, emitList, Ph hok.1, Qt hok.2]
  · intro l s t sc dl n ch f ce Qch hok
    simp only [directivesOKb, Bool.and_eq_true] at hok
    obtain ⟨⟨⟨hsc, hdl⟩, hce⟩, hch⟩ := hok
    simp only [writeItem, emitNoSynth, notesFlags_eq]
    rw [Qch hch]
    cases sc <;> cases dl <;> cases ce <;>
      simp_all [List.isEmpty_cons]

theorem emitStack_addNote (hd : Item) (t : List Item) (line : String)
    (hchd : hd.Children = []) :
    emitStack (hd.addNote line :: t) = emitStack (hd :: t) ++ [line] := by
  simp [emitStack, emit_addNote hd line hchd, List.append_assoc]

/-- One strict-mode step is an ordinary step that appends exactly the
consumed line to the state emission, and keeps the open item childless. -/
theorem parseStepX_sound (st : PState) (line : String) (st2 : PState)
    (h : parseStepX st line = some st2) (hhead : headChildless st = true) :
    parseStep st line = st2 ∧ stateEmit st2 = stateEmit st ++ [line] ∧
    headChildless st2 = true := by
  unfold parseStepX at h
  unfold parseStep
  by_cases h1 : drawerStartL line
  · simp only [h1, if_true] at h ⊢
    cases hstk : st.stack with
    | nil => rw [hstk] at h; simp at h
    | cons hd t =>
      rw [hstk] at h
      simp at h
      subst h
      have hchd : hd.Children = [] := by
        unfold headChildless at hhead
        rw [hstk] at hhead
        exact List.isEmpty_iff.mp hhead
      refine ⟨rfl, ?_, ?_⟩
      · simp [stateEmit, hstk, addNoteTop, emitStack_addNote hd t line hchd]
      · simp [headChildless, addNoteTop, Children_addNote, hchd]
  · by_cases h2 : drawerEndL line && st.inLogbookDrawer
    · simp only [h1, h2, if_true, if_false, Bool.false_eq_true] at h ⊢
      cases hstk : st.stack with
      | nil => rw [hstk] at h; simp at h
      | cons hd t =>
        rw [hstk] at h
        simp at h
        subst h
        have hchd : hd.Children = [] := by
          unfold headChildless at hhead
          rw [hstk] at hhead
          exact List.isEmpty_iff.mp hhead
        refine ⟨rfl, ?_, ?_⟩
        · simp [stateEmit, hstk, addNoteTop, emitStack_addNote hd t line hchd]
        · simp [headChildless, addNoteTop, Children_addNote, hchd]
    · by_cases h3 : codeBlockStartL line
      · simp only [h1, h2, h3, if_true, if_false, Bool.false_eq_true] at h ⊢
        cases hstk : st.stack with
        | nil => rw [hstk] at h; simp at h
        | cons hd t =>
          rw [hstk] at h
          simp at h
          subst h
          have hchd : hd.Children = [] := by
            unfold headChildless at hhead
            rw [hstk] at hhead
            exact List.isEmpty_iff.mp hhead
          refine ⟨rfl, ?_, ?_⟩
          · simp [stateEmit, hstk, addNoteTop, emitStack_addNote hd t line hchd]
          · simp [headChildless, addNoteTop, Children_addNote, hchd]
      · by_cases h4 : codeBlockEndL line
        · simp only [h1, h2, h3, h4, if_true, if_false, Bool.false_eq_true] at h ⊢
          cases hstk : st.stack with
          | nil => rw [hstk] at h; simp at h
          | cons hd t =>
            rw [hstk] at h
            simp at h
            subst h
            have hchd : hd.Children = [] := by
              unfold headChildless at hhead
              rw [hstk] at hhead
              exact List.isEmpty_iff.mp hhead
            refine ⟨rfl, ?_, ?_⟩
            · simp [stateEmit, hstk, addNoteTop, emitStack_addNote hd t line hchd]
            · simp [headChildless, addNoteTop, Children_addNote, hchd]
        · by_cases h5 : st.inCodeBlock
          · simp only [h1, h2, h3, h4, h5, if_true, if_false, Bool.false_eq_true] at h ⊢
            cases hstk : st.stack with
            | nil => rw [hstk] at h; simp at h
            | cons hd t =>
              rw [hstk] at h
              simp at h
              subst h
              have hchd : hd.Children = [] := by
                unfold headChildless at hhead
                rw [hstk] at hhead
                exact List.isEmpty_iff.mp hhead
              refine ⟨rfl, ?_, ?_⟩
              · simp [stateEmit, hstk, addNoteTop, emitStack_addNote hd t line hchd]
              · simp [headChildless, addNoteTop, Children_addNote, hchd]
          · simp only [h1, h2, h3, h4, h5, if_false, Bool.false_eq_true] at h ⊢
            cases hm : headingMatchL line.data with
            | some trip =>
              obtain ⟨lvl, stt, title⟩ := trip
              simp only [hm] at h ⊢
              by_cases hcanon : headingStr lvl stt title == line
              · simp only [hcanon, if_true, Option.some.injEq] at h
                subst h
                have hline : headingStr lvl stt title = line := by
                  exact eq_of_beq hcanon
                refine ⟨rfl, ?_, rfl⟩
                show emitList (popWhile lvl st.stack st.roots).2 ++
                    emitStack (Item.mk lvl stt title none none [] [] false [] ::
                      (popWhile lvl st.stack st.roots).1) = stateEmit st ++ [line]
                have hpw := popWhile_emit lvl st.stack st.roots
                simp only [emitStack, emitNoSynth, emitList]
                rw [← List.append_assoc, hpw, ← hline]
                rfl
              · simp [hcanon] at h
            | none =>
              simp only [hm] at h ⊢
              cases hstk : st.stack with
              | nil => rw [hstk] at h; simp at h
              | cons hd t =>
                rw [hstk] at h
                by_cases hdrop : isBlankGo line && hd.Notes.isEmpty
                · simp [hdrop] at h
                · simp only [hdrop, if_false, Bool.false_eq_true,
                    Option.some.injEq] at h
                  subst h
                  have hchd : hd.Children = [] := by
                    unfold headChildless at hhead
                    rw [hstk] at hhead
                    exact List.isEmpty_iff.mp hhead
                  have hN : (applyClock line (applyDeadline line (applySched line hd))).Notes
                      = hd.Notes := by
                    rw [Notes_applyClock, Notes_applyDeadline, Notes_applySched]
                  have hC : (applyClock line (applyDeadline line (applySched line hd))).Children
                      = hd.Children := by
                    rw [Children_applyClock, Children_applyDeadline, Children_applySched]
                  have hE : emitNoSynth (applyClock line (applyDeadline line (applySched line hd)))
                      = emitNoSynth hd := by
                    rw [emit_applyClock, emit_applyDeadline, emit_applySched]
                  have hcond : (!isBlankGo line ||
                      (applyClock line (applyDeadline line (applySched line hd))).Notes.length
                        != 0) = true := by
                    rw [hN]
                    rcases Bool.and_eq_false_iff.mp (Bool.eq_false_iff.mpr hdrop) with hx | hx
                    · simp [hx]
                    · have : hd.Notes ≠ [] := by
                        intro hy
                        rw [hy] at hx
                        simp at hx
                      simp [List.length_eq_zero, this]
                  refine ⟨rfl, ?_, ?_⟩
                  · show stateEmit { st with stack := noteStep line (hd :: t) } =
                      stateEmit st ++ [line]
                    unfold noteStep
                    simp only [hcond, if_true]
                    have hCA : (applyClock line (applyDeadline line (applySched line hd))).Children
                        = [] := by rw [hC, hchd]
                    simp [stateEmit, hstk, emitStack_addNote _ t line hCA, emitStack,
                      emit_addNote _ line hCA, hE, List.append_assoc]
                  · show headChildless { st with stack := noteStep line (hd :: t) } = true
                    unfold noteStep headChildless
                    simp only [hcond, if_true]
                    simp [Children_addNote, hC, hchd]

/-- Accepted strict replays compute the ordinary fold and account for every
consumed line, in order, in the state emission. -/
theorem strictReplay_sound :
    ∀ (ls : List String) (st st2 : PState),
      strictReplay st ls = some st2 → headChildless st = true →
      ls.foldl parseStep st = st2 ∧ stateEmit st2 = stateEmit st ++ ls ∧
        headChildless st2 = true := by
  intro ls
  induction ls with
  | nil =>
    intro st st2 h hhead
    cases h
    exact ⟨rfl, by simp, hhead⟩
  | cons l rest ih =>
    intro st st2 h hhead
    unfold strictReplay at h
    cases hx : parseStepX st l with
    | none => rw [hx] at h; cases h
    | some stM =>
      rw [hx] at h
      have hstep := parseStepX_sound st l stM hx hhead
      have hrest := ih stM st2 h hstep.2.2
      refine ⟨?_, ?_, hrest.2.2⟩
      · simp only [List.foldl_cons, hstep.1]
        exact hrest.1
      · rw [hrest.2.1, hstep.2.1]
        simp

/-- C1 (amended): `serialize(parse(text)) = text` whenever (a) splitting
`text` into lines and rejoining with `\n` reproduces it (it ends in a
newline and no line is shortened by `\r` stripping), (b) the strict replay
accepts every line — the first line is a heading, every heading is written
in its canonical single-space form, and no whitespace-only line sits where
the parser drops it (at the start of an item's notes) — and (c) the claim's
own precondition that every directive line a derivable field would
synthesize is already present in the notes of the parsed item. -/
theorem parse_serialize_roundtrip (text : String)
    (hsplit : text = joinNL (splitLinesStr text))
    (hstrict : strictOK (splitLinesStr text) = true)
    (hdir : directivesOKList (parseOrgString text) = true) :
    serializeOrg (parseOrgString text) = text := by
  obtain ⟨st2, hst2⟩ := Option.isSome_iff_exists.mp hstrict
  have hsound := strictReplay_sound (splitLinesStr text) initState st2 hst2 rfl
  have hparse : parseOrgString text = (popWhile 0 st2.stack st2.roots).2 := by
    unfold parseOrgString parseOrgLines
    rw [hsound.1]
  have hemit2 : emitList (parseOrgString text) = splitLinesStr text := by
    rw [hparse]
    have hpw := popWhile_emit 0 st2.stack st2.roots
    rw [popWhile_zero st2.stack st2.roots] at hpw
    have hse : emitList st2.roots ++ emitStack st2.stack = splitLinesStr text := by
      have := hsound.2.1
      simpa [stateEmit, initState, emitList, emitStack] using this
    rw [← hse]
    simpa [emitStack] using hpw
  have hw : writeItems (parseOrgString text) = emitList (parseOrgString text) :=
    writeItem_noSynth.2 _ hdir
  show joinNL (writeItems (parseOrgString text)) = text
  rw [hw, hemit2]
  exact hsplit.symm

/-- Witness for C1 at the spec's own scheduled-directive example. -/
theorem parse_serialize_roundtrip_witness :
    serializeOrg (parseOrgString "* TODO T\nSCHEDULED: <2024-01-15 Mon>\n") =
      "* TODO T\nSCHEDULED: <2024-01-15 Mon>\n" :=
  parse_serialize_roundtrip "* TODO T\nSCHEDULED: <2024-01-15 Mon>\n"
    (by decide) (by decide) (by decide)

/-- C1 counterexample: `"hello\n"` satisfies the claim's directive
precondition vacuously (its parse has no items at all, because the line
precedes any heading and is discarded), yet serializing the parse yields
`""`, not the original text. -/
theorem roundtrip_cex :
    directivesOKList (parseOrgString "hello\n") = true ∧
    serializeOrg (parseOrgString "hello\n") ≠ "hello\n" := by
  decide

end Org
